import Mathlib

/-!
Verification of the `bdb-tool` key-value store utility (`src/bin/bdb-tool.py`).

The store is a Berkeley DB hash file; we embed it as an association list of
(key, value) pairs of character lists, with the invariant (stated as a
hypothesis where needed) that keys are distinct, which the engine enforces.
Each operation of the `BDBTool` class is translated directly from the Python
source.  Mutating operations additionally return the list of engine actions
(`put`, `del`, `sync`) they performed, in order, so that durability claims
about flushing can be stated.
-/

set_option autoImplicit false

namespace BdbTool

/-- Text, modelled as a list of characters (Python `str`). -/
abbrev Str := List Char

/-- The store contents: engine-ordered association list of records. -/
abbrev Store := List (Str × Str)

/-- `value.replace('\r', '').replace('\n', ' ')` from `BDBTool.set` (line 76):
remove every carriage return, then replace every newline by one space. -/
def normalize (v : Str) : Str :=
  (v.filter (fun c => c ≠ '\r')).map (fun c => if c = '\n' then ' ' else c)

/-- Engine lookup `db.get(key)`: value of the first record with this key. -/
def dbGet : Store → Str → Option Str
  | [], _ => none
  | (k', v') :: rest, k => if k' = k then some v' else dbGet rest k

/-- Engine membership test `key in db`. -/
def dbMem (s : Store) (k : Str) : Bool :=
  (dbGet s k).isSome

/-- Engine write `db[key] = value`: overwrite in place, or append if fresh. -/
def dbPut : Store → Str → Str → Store
  | [], k, v => [(k, v)]
  | (k', v') :: rest, k, v =>
      if k' = k then (k, v) :: rest else (k', v') :: dbPut rest k v

/-- Engine removal `del db[key]`: drop the first record with this key. -/
def dbDel : Store → Str → Store
  | [], _ => []
  | (k', v') :: rest, k => if k' = k then rest else (k', v') :: dbDel rest k

/-- One engine action performed by a mutating operation, in the order the
Python code issues them; `sync` is `db.sync()`, the durable flush. -/
inductive Action where
  | put (k v : Str)
  | del (k : Str)
  | sync
  deriving DecidableEq

/-- `BDBTool.set` (lines 65-85): refuse an existing key unless `force`,
otherwise store the normalized value and flush.  Returns the success flag,
the new store contents, and the engine actions performed. -/
def set (s : Store) (key value : Str) (force : Bool) :
    Bool × Store × List Action :=
  if !force && dbMem s key then
    (false, s, [])
  else
    let nv := normalize value
    (true, dbPut s key nv, [Action.put key nv, Action.sync])

/-- `BDBTool.get` (lines 87-104): look the key up and normalize the stored
value on the way out; `none` when the key is absent. -/
def get (s : Store) (key : Str) : Option Str :=
  match dbGet s key with
  | none => none
  | some v => some (normalize v)

/-- `BDBTool.delete` (lines 106-122): fail when the key is absent, otherwise
remove the record and flush. -/
def delete (s : Store) (key : Str) : Bool × Store × List Action :=
  if dbMem s key then
    (true, dbDel s key, [Action.del key, Action.sync])
  else
    (false, s, [])

/-- `BDBTool.rename` (lines 124-149): fail when the old key is absent, or when
the new key exists without `force`; otherwise copy the raw value to the new
key, delete the old key, and flush once. -/
def rename (s : Store) (oldKey newKey : Str) (force : Bool) :
    Bool × Store × List Action :=
  match dbGet s oldKey with
  | none => (false, s, [])
  | some v =>
    if !force && dbMem s newKey then
      (false, s, [])
    else
      (true, dbDel (dbPut s newKey v) oldKey,
        [Action.put newKey v, Action.del oldKey, Action.sync])

/-- `BDBTool.dump` (lines 151-166): one output line per record in engine
iteration order, `key TAB normalizedValue` (without the trailing newline that
`print` adds; see `dumpText`). -/
def dump (s : Store) : List Str :=
  s.map (fun kv => kv.1 ++ '\t' :: normalize kv.2)

/-- The exact text `dump` writes: each line followed by the newline that
`print` appends. -/
def dumpText (s : Store) : Str :=
  (dump s).foldr (fun line acc => line ++ '\n' :: acc) []

/-- Python text-mode reading (`open(path, 'r')`) translates `\r\n` and lone
`\r` to `\n` (universal newlines) before the line iteration that `restore`
uses. -/
def translateNewlines : Str → Str
  | [] => []
  | [c] => if c = '\r' then ['\n'] else [c]
  | c :: d :: rest =>
    if c = '\r' then
      if d = '\n' then '\n' :: translateNewlines rest
      else '\n' :: translateNewlines (d :: rest)
    else c :: translateNewlines (d :: rest)

/-- Python file-object line iteration: split after each `\n` keeping it, and
yield a final newline-less chunk only when non-empty. -/
def splitLinesAux (acc : Str) : Str → List Str
  | [] => if acc = [] then [] else [acc.reverse]
  | c :: rest =>
    if c = '\n' then (acc.reverse ++ ['\n']) :: splitLinesAux [] rest
    else splitLinesAux (c :: acc) rest

/-- Split a text into the lines Python's file iteration yields. -/
def splitLines (text : Str) : List Str :=
  splitLinesAux [] text

/-- `line.rstrip('\n')` (line 177): drop every trailing newline. -/
def rstripNL : Str → Str
  | [] => []
  | c :: rest =>
    let r := rstripNL rest
    if c = '\n' ∧ r = [] then [] else c :: r

/-- `line.split('\t', 1)` (line 181): split at the first tab only; `none`
models the one-element result when the line holds no tab. -/
def splitFirstTab : Str → Option (Str × Str)
  | [] => none
  | c :: rest =>
    if c = '\t' then some ([], rest)
    else
      match splitFirstTab rest with
      | none => none
      | some (a, b) => some (c :: a, b)

/-- One iteration of the `restore` loop body (lines 176-191) on the raw line
`rawLine` numbered `lineNum`: returns the store afterwards, the count
increment, the warned line numbers, and the engine actions. -/
def restoreLine (s : Store) (force : Bool) (lineNum : Nat) (rawLine : Str) :
    Store × Nat × List Nat × List Action :=
  let line := rstripNL rawLine
  if line = [] then (s, 0, [], [])
  else
    match splitFirstTab line with
    | none => (s, 0, [lineNum], [])
    | some (k, v) =>
      let r := set s k v force
      (r.2.1, if r.1 then 1 else 0, [], r.2.2)

/-- The `restore` loop (lines 176-191) over a list of raw lines, numbering
from `lineNum` (the code starts `enumerate` at 1). -/
def restoreLines (s : Store) (force : Bool) (lineNum : Nat) :
    List Str → Store × Nat × List Nat × List Action
  | [] => (s, 0, [], [])
  | l :: rest =>
    let r1 := restoreLine s force lineNum l
    let r2 := restoreLines r1.1 force (lineNum + 1) rest
    (r2.1, r1.2.1 + r2.2.1, r1.2.2.1 ++ r2.2.2.1, r1.2.2.2 ++ r2.2.2.2)

/-- `BDBTool.restore` (lines 168-202) on the contents of the input file:
text-mode newline translation, line iteration from 1, then the per-line
policy of `restoreLine`. -/
def restore (s : Store) (force : Bool) (text : Str) :
    Store × Nat × List Nat × List Action :=
  restoreLines s force 1 (splitLines (translateNewlines text))

/-! ### Basic lemmas about normalization and the engine map -/

theorem normalize_no_special (v : Str) :
    ∀ c ∈ normalize v, c ≠ '\r' ∧ c ≠ '\n' := by
  intro c hc
  simp only [normalize, List.mem_map, List.mem_filter] at hc
  obtain ⟨a, ⟨_, ha⟩, rfl⟩ := hc
  by_cases h : a = '\n'
  · simp [h]
  · simp only [if_neg h]
    exact ⟨by simpa using ha, h⟩

theorem normalize_eq_self (v : Str) (h : ∀ c ∈ v, c ≠ '\r' ∧ c ≠ '\n') :
    normalize v = v := by
  induction v with
  | nil => rfl
  | cons c rest ih =>
    have hc := h c (List.mem_cons_self c rest)
    have hrest := ih (fun d hd => h d (List.mem_cons_of_mem c hd))
    simp only [normalize, List.filter_cons, List.map_cons] at hrest ⊢
    rw [if_pos (by simpa using hc.1)]
    simp only [List.map_cons, if_neg hc.2]
    exact congrArg (c :: ·) hrest

theorem normalize_idem (v : Str) : normalize (normalize v) = normalize v :=
  normalize_eq_self _ (normalize_no_special v)

theorem dbGet_dbPut_self (s : Store) (k v : Str) :
    dbGet (dbPut s k v) k = some v := by
  induction s with
  | nil => simp [dbPut, dbGet]
  | cons p rest ih =>
    obtain ⟨k', v'⟩ := p
    by_cases h : k' = k
    · simp [dbPut, dbGet, h]
    · simp [dbPut, dbGet, h, ih]

theorem dbGet_dbPut_ne (s : Store) (k v k' : Str) (h : k' ≠ k) :
    dbGet (dbPut s k v) k' = dbGet s k' := by
  have h' : ¬k = k' := fun e => h e.symm
  induction s with
  | nil => simp [dbPut, dbGet, h']
  | cons p rest ih =>
    obtain ⟨k0, v0⟩ := p
    by_cases h0 : k0 = k
    · subst h0
      simp [dbPut, dbGet, h']
    · by_cases h1 : k0 = k'
      · simp [dbPut, dbGet, h0, h1, h]
      · simp [dbPut, dbGet, h0, h1, ih]

theorem dbGet_dbDel_ne (s : Store) (k k' : Str) (h : k' ≠ k) :
    dbGet (dbDel s k) k' = dbGet s k' := by
  have h' : ¬k = k' := fun e => h e.symm
  induction s with
  | nil => simp [dbDel]
  | cons p rest ih =>
    obtain ⟨k0, v0⟩ := p
    by_cases h0 : k0 = k
    · subst h0
      simp [dbDel, dbGet, h']
    · by_cases h1 : k0 = k'
      · simp [dbDel, dbGet, h0, h1, h]
      · simp [dbDel, dbGet, h0, h1, ih]

theorem dbGet_eq_none_of_not_mem (s : Store) (k : Str)
    (h : k ∉ s.map Prod.fst) : dbGet s k = none := by
  induction s with
  | nil => rfl
  | cons p rest ih =>
    obtain ⟨k0, v0⟩ := p
    simp only [List.map_cons, List.mem_cons, not_or] at h
    have h1 : ¬k0 = k := fun e => h.1 e.symm
    simp [dbGet, h1, ih h.2]

theorem dbGet_dbDel_self (s : Store) (k : Str)
    (h : (s.map Prod.fst).Nodup) : dbGet (dbDel s k) k = none := by
  induction s with
  | nil => rfl
  | cons p rest ih =>
    obtain ⟨k0, v0⟩ := p
    simp only [List.map_cons, List.nodup_cons] at h
    by_cases h0 : k0 = k
    · subst h0
      simpa [dbDel] using dbGet_eq_none_of_not_mem rest k0 h.1
    · simp [dbDel, dbGet, h0, ih h.2]

theorem mem_map_fst_dbPut (s : Store) (k v x : Str) :
    x ∈ (dbPut s k v).map Prod.fst ↔ x ∈ s.map Prod.fst ∨ x = k := by
  induction s with
  | nil => simp [dbPut]
  | cons p rest ih =>
    obtain ⟨k0, v0⟩ := p
    by_cases h0 : k0 = k
    · subst h0
      simp [dbPut]
      tauto
    · simp only [dbPut, if_neg h0, List.map_cons, List.mem_cons, ih]
      tauto

theorem nodup_dbPut (s : Store) (k v : Str)
    (h : (s.map Prod.fst).Nodup) : ((dbPut s k v).map Prod.fst).Nodup := by
  induction s with
  | nil => simp [dbPut]
  | cons p rest ih =>
    obtain ⟨k0, v0⟩ := p
    simp only [List.map_cons, List.nodup_cons] at h
    by_cases h0 : k0 = k
    · subst h0
      simpa [dbPut] using h
    · simp only [dbPut, if_neg h0, List.map_cons, List.nodup_cons]
      refine ⟨fun hc => ?_, ih h.2⟩
      rcases (mem_map_fst_dbPut rest k v k0).1 hc with hm | he
      · exact h.1 hm
      · exact h0 he

/-! ### Lemmas about the line codec -/

theorem rstripNL_eq_self (l : Str) (h : '\n' ∉ l) : rstripNL l = l := by
  induction l with
  | nil => rfl
  | cons c rest ih =>
    simp only [List.mem_cons, not_or] at h
    have hc : ¬c = '\n' := fun e => h.1 e.symm
    simp [rstripNL, hc, ih h.2]

theorem rstripNL_append_newline (l : Str) :
    rstripNL (l ++ ['\n']) = rstripNL l := by
  induction l with
  | nil => simp [rstripNL]
  | cons c rest ih =>
    simp [rstripNL, ih]

theorem splitFirstTab_eq_none (l : Str) :
    splitFirstTab l = none ↔ '\t' ∉ l := by
  induction l with
  | nil => simp [splitFirstTab]
  | cons c rest ih =>
    by_cases hc : c = '\t'
    · subst hc
      simp [splitFirstTab]
    · have hc' : ¬ '\t' = c := fun e => hc e.symm
      simp only [splitFirstTab, if_neg hc, List.mem_cons, not_or]
      cases hs : splitFirstTab rest with
      | none => simp [hc', ih.1 hs]
      | some p =>
        obtain ⟨a, b⟩ := p
        have hm : '\t' ∈ rest := by
          by_contra hmem
          rw [ih.2 hmem] at hs
          exact absurd hs (by simp)
        simp [hs, hm]

theorem splitFirstTab_append (k v : Str) (hk : '\t' ∉ k) :
    splitFirstTab (k ++ '\t' :: v) = some (k, v) := by
  induction k with
  | nil => simp [splitFirstTab]
  | cons c rest ih =>
    simp only [List.mem_cons, not_or] at hk
    have hc : ¬c = '\t' := fun e => hk.1 e.symm
    simp [splitFirstTab, hc, ih hk.2]

theorem splitFirstTab_eq_some (l a b : Str)
    (h : splitFirstTab l = some (a, b)) :
    l = a ++ '\t' :: b ∧ '\t' ∉ a := by
  induction l generalizing a with
  | nil => simp [splitFirstTab] at h
  | cons c rest ih =>
    by_cases hc : c = '\t'
    · subst hc
      simp only [splitFirstTab, if_pos rfl, Option.some_inj, Prod.mk.injEq] at h
      obtain ⟨rfl, rfl⟩ := h
      simp
    · simp only [splitFirstTab, if_neg hc] at h
      cases hs : splitFirstTab rest with
      | none => rw [hs] at h; exact absurd h (by simp)
      | some p =>
        obtain ⟨a0, b0⟩ := p
        rw [hs] at h
        simp only [Option.some_inj, Prod.mk.injEq] at h
        obtain ⟨ha, rfl⟩ := h
        obtain ⟨rfl, hnt⟩ := ih a0 hs
        constructor
        · rw [← ha]; simp
        · rw [← ha]
          simp only [List.mem_cons, not_or]
          exact ⟨fun e => hc e.symm, hnt⟩

/-! ### Claim C2 -/

/-- C2: for every key `k` and value `v`, if `Set(k, v, force=false)` succeeds,
then a subsequent `Get(k)` returns `v` with every carriage return removed and
every newline replaced by a single space. -/
theorem claim2_set_then_get (s : Store) (k v : Str)
    (h : (set s k v false).1 = true) :
    get (set s k v false).2.1 k =
      some ((v.filter (fun c => c ≠ '\r')).map
        (fun c => if c = '\n' then ' ' else c)) := by
  cases hm : dbMem s k with
  | true => simp [set, hm] at h
  | false =>
    show get (set s k v false).2.1 k = some (normalize v)
    simp only [set, hm, Bool.not_false, Bool.true_and, Bool.false_eq_true,
      if_false]
    simp [get, dbGet_dbPut_self, normalize_idem]

/-- Witness for C2 at a concrete input containing both special characters. -/
theorem claim2_set_then_get_witness :
    get (set [] ("k".toList) ("a\r\nb".toList) false).2.1 ("k".toList) =
      some ((("a\r\nb".toList).filter (fun c => c ≠ '\r')).map
        (fun c => if c = '\n' then ' ' else c)) :=
  claim2_set_then_get [] ("k".toList) ("a\r\nb".toList) (by decide)

/-! ### Claim C3 -/

/-- C3: for every key already present, `Set(k, v, force=false)` fails and has
no side effect: the returned store is the prior store, no engine action is
performed, and `Get(k)` still returns the prior value. -/
theorem claim3_set_existing_fails (s : Store) (k v w : Str)
    (h : dbGet s k = some w) :
    set s k v false = (false, s, []) ∧ get s k = some (normalize w) := by
  have hm : dbMem s k = true := by simp [dbMem, h]
  exact ⟨by simp [set, hm], by simp [get, h]⟩

/-- Witness for C3 at a concrete store. -/
theorem claim3_set_existing_fails_witness :
    set [(("k".toList), ("old".toList))] ("k".toList) ("new".toList) false =
        (false, [(("k".toList), ("old".toList))], []) ∧
      get [(("k".toList), ("old".toList))] ("k".toList) =
        some (normalize ("old".toList)) :=
  claim3_set_existing_fails _ ("k".toList) ("new".toList) ("old".toList)
    (by decide)

/-! ### Claim C4 -/

/-- C4 as stated is false when `a = b`: with the single record `(k, v)`,
`Rename(k, k, force=true)` succeeds but `Get(k)` afterwards returns `none`,
not `k`'s former value. -/
theorem claim4_rename_cex :
    (rename [(("k".toList), ("v".toList))] ("k".toList) ("k".toList)
        true).1 = true ∧
      get (rename [(("k".toList), ("v".toList))] ("k".toList) ("k".toList)
          true).2.1 ("k".toList) = none ∧
      get [(("k".toList), ("v".toList))] ("k".toList) =
        some ("v".toList) := by
  decide

/-- C4 (amended to distinct keys): for all `a ≠ b` both present in a store
with distinct keys, `Rename(a, b, force=true)` succeeds, afterwards `Get(b)`
returns `a`'s former value and `Get(a)` fails with not-found. -/
theorem claim4_rename_force_overwrites (s : Store) (a b va : Str)
    (hab : a ≠ b) (hnd : (s.map Prod.fst).Nodup)
    (ha : dbGet s a = some va) (hb : dbMem s b = true) :
    (rename s a b true).1 = true ∧
      get (rename s a b true).2.1 b = get s a ∧
      get (rename s a b true).2.1 a = none := by
  have hba : b ≠ a := fun e => hab e.symm
  have hget_b : dbGet (dbDel (dbPut s b va) a) b = some va := by
    rw [dbGet_dbDel_ne _ _ _ hba, dbGet_dbPut_self]
  have hget_a : dbGet (dbDel (dbPut s b va) a) a = none :=
    dbGet_dbDel_self _ a (nodup_dbPut s b va hnd)
  refine ⟨by simp [rename, ha], ?_, ?_⟩
  · simp [rename, ha, get, hget_b]
  · simp [rename, ha, get, hget_a]

/-- Witness for the amended C4 at a concrete two-record store. -/
theorem claim4_rename_force_overwrites_witness :
    (rename [(("a".toList), ("x".toList)), (("b".toList), ("y".toList))]
        ("a".toList) ("b".toList) true).1 = true ∧
      get (rename [(("a".toList), ("x".toList)), (("b".toList), ("y".toList))]
          ("a".toList) ("b".toList) true).2.1 ("b".toList) =
        get [(("a".toList), ("x".toList)), (("b".toList), ("y".toList))]
          ("a".toList) ∧
      get (rename [(("a".toList), ("x".toList)), (("b".toList), ("y".toList))]
          ("a".toList) ("b".toList) true).2.1 ("a".toList) = none :=
  claim4_rename_force_overwrites _ ("a".toList) ("b".toList) ("x".toList)
    (by decide) (by decide) (by decide) (by decide)

/-! ### Claim C10 -/

/-- C10: for every key `k` present in a store with distinct keys,
`Rename(k, k, force=true)` reports success but removes `k` entirely (the
value is written back under `k`, then `k` is deleted), so `Get(k)` fails
afterwards. -/
theorem claim10_rename_self_removes (s : Store) (k : Str)
    (hnd : (s.map Prod.fst).Nodup) (hk : dbMem s k = true) :
    (rename s k k true).1 = true ∧
      get (rename s k k true).2.1 k = none := by
  obtain ⟨v, hv⟩ : ∃ v, dbGet s k = some v := by
    cases hg : dbGet s k with
    | none => rw [dbMem, hg] at hk; exact absurd hk (by simp)
    | some v => exact ⟨v, rfl⟩
  have hnone : dbGet (dbDel (dbPut s k v) k) k = none :=
    dbGet_dbDel_self _ k (nodup_dbPut s k v hnd)
  exact ⟨by simp [rename, hv], by simp [rename, hv, get, hnone]⟩

/-- Witness for C10 at a concrete one-record store. -/
theorem claim10_rename_self_removes_witness :
    (rename [(("k".toList), ("v".toList))] ("k".toList) ("k".toList)
        true).1 = true ∧
      get (rename [(("k".toList), ("v".toList))] ("k".toList) ("k".toList)
          true).2.1 ("k".toList) = none :=
  claim10_rename_self_removes _ ("k".toList) (by decide) (by decide)

/-! ### Claim C8 -/

/-- C8: restoring the five raw lines `"k1\tv1\n"`, `"badline\n"`,
`"k2\tv2\n"`, `""`, `"keyonly\n"` into an empty store applies exactly the
two records `k1` and `k2`, counts 2, skips the empty fourth line silently
(no warning for line 4), and warns exactly for lines 2 and 5. -/
theorem claim8_restore_concrete :
    restoreLines [] false 1
        ["k1\tv1\n".toList, "badline\n".toList, "k2\tv2\n".toList,
          "".toList, "keyonly\n".toList] =
      ([(("k1".toList), ("v1".toList)), (("k2".toList), ("v2".toList))], 2,
        [2, 5],
        [Action.put ("k1".toList) ("v1".toList), Action.sync,
          Action.put ("k2".toList) ("v2".toList), Action.sync]) := by
  decide

/-! ### Claim C6 -/

/-- C6 as stated is false: the line `"a\tb\tc"` holds two tab characters,
yet restore does not skip it — it is applied (key `a`, value `b TAB c`),
counted, and produces no warning. -/
theorem claim6_multi_tab_cex :
    restore [] false ("a\tb\tc\n".toList) =
      ([(("a".toList), ("b\tc".toList))], 1, [],
        [Action.put ("a".toList) ("b\tc".toList), Action.sync]) := by
  decide

/-- C6 (amended): a line holding more than one tab is split at the first tab
only; the text before it becomes the key and everything after it — embedded
tabs included — becomes the value, which is handed to `set` (so it is counted
exactly when `set` succeeds) with no warning and no abort. -/
theorem claim6_multi_tab_applied (s : Store) (f : Bool) (n : Nat) (k v : Str)
    (hk : '\t' ∉ k) (hkn : '\n' ∉ k) (hvn : '\n' ∉ v) (hvt : '\t' ∈ v) :
    restoreLine s f n (k ++ '\t' :: v) =
      ((set s k v f).2.1, if (set s k v f).1 then 1 else 0, [],
        (set s k v f).2.2) := by
  have hline : '\n' ∉ k ++ '\t' :: v := by
    simp only [List.mem_append, List.mem_cons, not_or]
    exact ⟨hkn, by decide, hvn⟩
  have hne : k ++ '\t' :: v ≠ [] := by simp
  simp [restoreLine, rstripNL_eq_self _ hline, hne, splitFirstTab_append k v hk]

/-- Witness for the amended C6 on the two-tab line `"a\tb\tc"`. -/
theorem claim6_multi_tab_applied_witness :
    restoreLine [] false 1 (("a".toList) ++ '\t' :: ("b\tc".toList)) =
      ((set [] ("a".toList) ("b\tc".toList) false).2.1,
        if (set [] ("a".toList) ("b\tc".toList) false).1 then 1 else 0, [],
        (set [] ("a".toList) ("b\tc".toList) false).2.2) :=
  claim6_multi_tab_applied [] false 1 ("a".toList) ("b\tc".toList)
    (by decide) (by decide) (by decide) (by decide)

/-! ### Claim C7 -/

/-- C7 as stated is false: the line `"\tv"` has an empty key field before its
first tab, yet restore does not warn or skip it — it is applied under the
empty key and counted. -/
theorem claim7_empty_key_cex :
    restore [] false ("\tv\n".toList) =
      ([([], ("v".toList))], 1, [],
        [Action.put [] ("v".toList), Action.sync]) := by
  decide

/-- C7 (amended): a non-empty line is handed to `set` if and only if it holds
a tab: it is then split at its first tab into a key (which may be empty) and
a value. A non-empty line with no tab gets a warning carrying its 1-based
line number, is skipped, and is not counted. -/
theorem claim7_line_policy (s : Store) (f : Bool) (n : Nat) (rawLine : Str)
    (hne : rstripNL rawLine ≠ []) :
    ('\t' ∈ rstripNL rawLine →
        ∃ k v, splitFirstTab (rstripNL rawLine) = some (k, v) ∧
          rstripNL rawLine = k ++ '\t' :: v ∧ '\t' ∉ k ∧
          restoreLine s f n rawLine =
            ((set s k v f).2.1, if (set s k v f).1 then 1 else 0, [],
              (set s k v f).2.2)) ∧
      ('\t' ∉ rstripNL rawLine →
        restoreLine s f n rawLine = (s, 0, [n], [])) := by
  constructor
  · intro htab
    cases hs : splitFirstTab (rstripNL rawLine) with
    | none => exact absurd ((splitFirstTab_eq_none _).1 hs) (by simp [htab])
    | some p =>
      obtain ⟨k, v⟩ := p
      obtain ⟨heq, hk⟩ := splitFirstTab_eq_some _ k v hs
      exact ⟨k, v, rfl, heq, hk, by simp [restoreLine, hne, hs]⟩
  · intro htab
    have hs : splitFirstTab (rstripNL rawLine) = none :=
      (splitFirstTab_eq_none _).2 htab
    simp [restoreLine, hne, hs]

/-- Witness for the amended C7: the tab-free line `"keyonly"` warns on its
line number and leaves the store alone. -/
theorem claim7_line_policy_witness :
    restoreLine [] false 1 ("keyonly".toList) = ([], 0, [1], []) :=
  (claim7_line_policy [] false 1 ("keyonly".toList) (by decide)).2 (by decide)

/-! ### Claim C9 -/

/-- C9: during restore without force, a well-formed line whose key already
exists contributes nothing: the rest of the lines are processed from the
unchanged store, the count and warnings are exactly those of the remaining
lines, and the pre-existing value of that key is untouched. -/
theorem claim9_restore_collision (s : Store) (k v w : Str) (rest : List Str)
    (n : Nat) (hmem : dbGet s k = some w) (hk : '\t' ∉ k) (hkn : '\n' ∉ k)
    (hvn : '\n' ∉ v) :
    restoreLines s false n ((k ++ '\t' :: v) :: rest) =
        restoreLines s false (n + 1) rest ∧
      get s k = some (normalize w) := by
  have hline : '\n' ∉ k ++ '\t' :: v := by
    simp only [List.mem_append, List.mem_cons, not_or]
    exact ⟨hkn, by decide, hvn⟩
  have hne : k ++ '\t' :: v ≠ [] := by simp
  have hm : dbMem s k = true := by simp [dbMem, hmem]
  have hset : set s k v false = (false, s, []) := by simp [set, hm]
  constructor
  · have hr1 : restoreLine s false n (k ++ '\t' :: v) = (s, 0, [], []) := by
      simp [restoreLine, rstripNL_eq_self _ hline, hne,
        splitFirstTab_append k v hk, hset]
    simp [restoreLines, hr1]
  · simp [get, hmem]

/-- Witness for C9: a colliding line followed by a fresh line. -/
theorem claim9_restore_collision_witness :
    restoreLines [(("k".toList), ("w".toList))] false 1
          [("k".toList) ++ '\t' :: ("v".toList), "k2\tv2".toList] =
        restoreLines [(("k".toList), ("w".toList))] false 2 ["k2\tv2".toList] ∧
      get [(("k".toList), ("w".toList))] ("k".toList) =
        some (normalize ("w".toList)) :=
  claim9_restore_collision _ ("k".toList) ("v".toList) ("w".toList) _ 1
    (by decide) (by decide) (by decide) (by decide)

/-! ### Claim C5: durability of the engine action traces -/

/-- Whether an engine action changes the store (`put` or `del`). -/
def isMutation : Action → Bool
  | Action.put _ _ => true
  | Action.del _ => true
  | Action.sync => false

/-- Whether a trace holds at least one `sync`. -/
def hasSync : List Action → Bool
  | [] => false
  | Action.sync :: _ => true
  | _ :: rest => hasSync rest

/-- A trace is flushed when every mutation in it is followed, later in the
same trace, by a `sync`: no mutation is still pending when the operation
returns. -/
def flushed : List Action → Bool
  | [] => true
  | a :: rest => (!isMutation a || hasSync rest) && flushed rest

theorem hasSync_append (t1 t2 : List Action) :
    hasSync (t1 ++ t2) = (hasSync t1 || hasSync t2) := by
  induction t1 with
  | nil => simp [hasSync]
  | cons a rest ih =>
    cases a with
    | put k v => simpa [hasSync] using ih
    | del k => simpa [hasSync] using ih
    | sync => simp [hasSync]

theorem flushed_append (t1 t2 : List Action)
    (h1 : flushed t1 = true) (h2 : flushed t2 = true) :
    flushed (t1 ++ t2) = true := by
  induction t1 with
  | nil => simpa using h2
  | cons a rest ih =>
    simp only [flushed, Bool.and_eq_true, Bool.or_eq_true] at h1
    simp only [List.cons_append, flushed, List.append_eq, hasSync_append,
      Bool.and_eq_true, Bool.or_eq_true]
    refine ⟨?_, ih h1.2⟩
    rcases h1.1 with h | h
    · exact Or.inl h
    · exact Or.inr (Or.inl h)

theorem flushed_set (s : Store) (k v : Str) (f : Bool) :
    flushed (set s k v f).2.2 = true := by
  by_cases hm : (!f && dbMem s k) = true
  · simp [set, hm, flushed]
  · simp [set, hm]
    rfl

theorem flushed_restoreLine (s : Store) (f : Bool) (n : Nat) (l : Str) :
    flushed (restoreLine s f n l).2.2.2 = true := by
  by_cases hne : rstripNL l = []
  · simp [restoreLine, hne, flushed]
  · cases hs : splitFirstTab (rstripNL l) with
    | none => simp [restoreLine, hne, hs, flushed]
    | some p =>
      obtain ⟨k, v⟩ := p
      simpa [restoreLine, hne, hs] using flushed_set s k v f

theorem flushed_restoreLines (s : Store) (f : Bool) (n : Nat)
    (ls : List Str) : flushed (restoreLines s f n ls).2.2.2 = true := by
  induction ls generalizing s n with
  | nil => rfl
  | cons l rest ih =>
    simp only [restoreLines]
    exact flushed_append _ _ (flushed_restoreLine s f n l) (ih _ _)

/-- C5: every successful mutating operation flushes durably before it
returns.  `set` returns after exactly a `put` then a `sync`; `delete` after a
`del` then a `sync`; `rename` after a `put`, a `del` and one `sync`; and a
whole `restore` trace is flushed — every mutation any applied line performs
is followed by that line's own `sync` before the operation returns, leaving
no deferred flush window. -/
theorem claim5_durable_flush (s : Store) (k v k2 : Str) (f f2 f3 : Bool)
    (text : Str) :
    ((set s k v f).1 = true →
        (set s k v f).2.2 = [Action.put k (normalize v), Action.sync]) ∧
      ((delete s k).1 = true →
        (delete s k).2.2 = [Action.del k, Action.sync]) ∧
      ((rename s k k2 f2).1 = true →
        ∃ w, (rename s k k2 f2).2.2 =
          [Action.put k2 w, Action.del k, Action.sync]) ∧
      flushed (restore s f3 text).2.2.2 = true := by
  refine ⟨?_, ?_, ?_, flushed_restoreLines _ _ _ _⟩
  · intro h
    by_cases hm : (!f && dbMem s k) = true
    · simp [set, hm] at h
    · simp [set, hm]
  · intro h
    by_cases hm : dbMem s k = true
    · simp [delete, hm]
    · simp [delete, hm] at h
  · intro h
    cases hg : dbGet s k with
    | none => simp [rename, hg] at h
    | some w =>
      by_cases hm : (!f2 && dbMem s k2) = true
      · simp [rename, hg, hm] at h
      · exact ⟨w, by simp [rename, hg, hm]⟩

/-- Witness for C5: the three single-key operations at concrete stores where
they succeed, and a concrete restore trace. -/
theorem claim5_durable_flush_witness :
    (set [] ("a".toList) ("b".toList) false).2.2 =
        [Action.put ("a".toList) (normalize ("b".toList)), Action.sync] ∧
      (delete [(("a".toList), ("b".toList))] ("a".toList)).2.2 =
        [Action.del ("a".toList), Action.sync] ∧
      (∃ w, (rename [(("a".toList), ("b".toList))] ("a".toList) ("c".toList)
          false).2.2 =
        [Action.put ("c".toList) w, Action.del ("a".toList), Action.sync]) ∧
      flushed (restore [] false ("a\tb\n".toList)).2.2.2 = true := by
  refine ⟨?_, ?_, ?_, ?_⟩
  · exact (claim5_durable_flush [] ("a".toList) ("b".toList) ("c".toList)
      false false false []).1 (by decide)
  · exact (claim5_durable_flush [(("a".toList), ("b".toList))] ("a".toList)
      ("b".toList) ("c".toList) false false false []).2.1 (by decide)
  · exact (claim5_durable_flush [(("a".toList), ("b".toList))] ("a".toList)
      ("b".toList) ("c".toList) false false false []).2.2.1 (by decide)
  · exact (claim5_durable_flush [] ("a".toList) ("b".toList) ("c".toList)
      false false false ("a\tb\n".toList)).2.2.2

/-! ### Claim C1: dump / restore round trip -/

theorem translate_cons (c : Char) (tail : Str) (hc : ¬c = '\r') :
    translateNewlines (c :: tail) = c :: translateNewlines tail := by
  cases tail with
  | nil => simp [translateNewlines, hc]
  | cons d rest => simp [translateNewlines, hc]

theorem translateNewlines_eq_self (l : Str) (h : '\r' ∉ l) :
    translateNewlines l = l := by
  induction l with
  | nil => rfl
  | cons c rest ih =>
    simp only [List.mem_cons, not_or] at h
    rw [translate_cons c rest (fun e => h.1 e.symm), ih h.2]

theorem splitLinesAux_append (line rest : Str) (acc : Str)
    (h : '\n' ∉ line) :
    splitLinesAux acc (line ++ '\n' :: rest) =
      ((acc.reverse ++ line) ++ ['\n']) :: splitLinesAux [] rest := by
  induction line generalizing acc with
  | nil => simp [splitLinesAux]
  | cons c cs ih =>
    simp only [List.mem_cons, not_or] at h
    have hc : ¬c = '\n' := fun e => h.1 e.symm
    simp only [List.cons_append, splitLinesAux, if_neg hc, List.append_eq]
    rw [ih (c :: acc) h.2]
    simp [List.append_assoc]

/-- The dump of one more record, as the text `dump` prints. -/
theorem dumpText_cons (k v : Str) (rest : Store) :
    dumpText ((k, v) :: rest) =
      (k ++ '\t' :: normalize v) ++ '\n' :: dumpText rest := rfl

theorem no_newline_in_dump_line (k v : Str) (hk : '\n' ∉ k) :
    '\n' ∉ k ++ '\t' :: normalize v := by
  simp only [List.mem_append, List.mem_cons, not_or]
  exact ⟨hk, by decide, fun hm => (normalize_no_special v _ hm).2 rfl⟩

theorem no_cr_dumpText (s : Store) (h : ∀ p ∈ s, '\r' ∉ p.1) :
    '\r' ∉ dumpText s := by
  induction s with
  | nil => simp [dumpText, dump]
  | cons p rest ih =>
    obtain ⟨k, v⟩ := p
    simp only [dumpText_cons, List.mem_append, List.mem_cons, not_or]
    refine ⟨⟨h (k, v) (List.mem_cons_self _ _), by decide,
      fun hm => (normalize_no_special v _ hm).1 rfl⟩, by decide,
      ih (fun p hp => h p (List.mem_cons_of_mem _ hp))⟩

theorem splitLines_dumpText (s : Store) (hclean : ∀ p ∈ s, '\n' ∉ p.1) :
    splitLines (dumpText s) = (dump s).map (fun l => l ++ ['\n']) := by
  induction s with
  | nil => rfl
  | cons p rest ih =>
    obtain ⟨k, v⟩ := p
    have hline : '\n' ∉ k ++ '\t' :: normalize v :=
      no_newline_in_dump_line k v (hclean (k, v) (List.mem_cons_self _ _))
    show splitLinesAux []
        ((k ++ '\t' :: normalize v) ++ '\n' :: dumpText rest) = _
    rw [splitLinesAux_append _ _ _ hline]
    have := ih (fun p hp => hclean p (List.mem_cons_of_mem _ hp))
    simp only [splitLines] at this
    simp [dump, this]

/-- Restoring the dumped lines of a clean store `s` on top of a store `t`
that holds none of `s`'s keys: every record of `s` lands with its normalized
value, and every other key keeps its `t` binding. -/
theorem restore_dump_aux (s t : Store) (f : Bool) (n : Nat)
    (hnd : (s.map Prod.fst).Nodup)
    (hclean : ∀ p ∈ s, '\t' ∉ p.1 ∧ '\n' ∉ p.1)
    (hfresh : ∀ p ∈ s, dbGet t p.1 = none) :
    (∀ k v, dbGet s k = some v →
        dbGet (restoreLines t f n
          ((dump s).map (fun l => l ++ ['\n']))).1 k = some (normalize v)) ∧
      (∀ k, k ∉ s.map Prod.fst →
        dbGet (restoreLines t f n
          ((dump s).map (fun l => l ++ ['\n']))).1 k = dbGet t k) := by
  induction s generalizing t n with
  | nil =>
    exact ⟨fun k v h => by simp [dbGet] at h, fun k _ => rfl⟩
  | cons p rest ih =>
    obtain ⟨k0, v0⟩ := p
    have hk0 := hclean (k0, v0) (List.mem_cons_self _ _)
    have hfresh0 := hfresh (k0, v0) (List.mem_cons_self _ _)
    simp only [List.map_cons, List.nodup_cons] at hnd
    have hraw : restoreLine t f n ((k0 ++ '\t' :: normalize v0) ++ ['\n']) =
        (dbPut t k0 (normalize v0), 1, [],
          [Action.put k0 (normalize v0), Action.sync]) := by
      have hline : '\n' ∉ k0 ++ '\t' :: normalize v0 :=
        no_newline_in_dump_line k0 v0 hk0.2
      have hrs : rstripNL (k0 ++ '\t' :: (normalize v0 ++ ['\n'])) =
          k0 ++ '\t' :: normalize v0 := by
        have he : k0 ++ '\t' :: (normalize v0 ++ ['\n']) =
            (k0 ++ '\t' :: normalize v0) ++ ['\n'] := by simp
        rw [he, rstripNL_append_newline, rstripNL_eq_self _ hline]
      have hne' : k0 ++ '\t' :: normalize v0 ≠ [] := by simp
      have hmem : dbMem t k0 = false := by simp [dbMem, hfresh0]
      simp [restoreLine, hrs, hne',
        splitFirstTab_append k0 (normalize v0) hk0.1, set, hmem,
        normalize_idem]
    have hfresh1 : ∀ p ∈ rest, dbGet (dbPut t k0 (normalize v0)) p.1 = none := by
      intro p hp
      have hne0 : p.1 ≠ k0 := by
        intro e
        exact hnd.1 (e ▸ List.mem_map_of_mem Prod.fst hp)
      rw [dbGet_dbPut_ne _ _ _ _ hne0]
      exact hfresh p (List.mem_cons_of_mem _ hp)
    have ihh := ih (dbPut t k0 (normalize v0)) (n + 1) hnd.2
      (fun p hp => hclean p (List.mem_cons_of_mem _ hp)) hfresh1
    have hunfold :
        (restoreLines t f n
          ((dump ((k0, v0) :: rest)).map (fun l => l ++ ['\n']))).1 =
        (restoreLines (dbPut t k0 (normalize v0)) f (n + 1)
          ((dump rest).map (fun l => l ++ ['\n']))).1 := by
      simp only [dump, List.map_cons, restoreLines, hraw]
    constructor
    · intro k v hget
      by_cases hk : k0 = k
      · subst hk
        have hv : v = v0 := by
          simp [dbGet] at hget
          exact hget.symm
        subst hv
        rw [hunfold, ihh.2 k0 hnd.1, dbGet_dbPut_self]
      · have hget' : dbGet rest k = some v := by
          simpa [dbGet, hk] using hget
        rw [hunfold]
        exact ihh.1 k v hget'
    · intro k hk
      simp only [List.map_cons, List.mem_cons, not_or] at hk
      rw [hunfold, ihh.2 k hk.2, dbGet_dbPut_ne _ _ _ _ hk.1]

/-- C1 as stated is false for keys holding a tab: the one-record store with
key `"a\tb"` and value `"v"` dumps to the line `"a\tb\tv"`, which restore
re-splits at its first tab, so the fresh store maps `"a"` to `"b\tv"` and a
`Get` of the original key `"a\tb"` fails instead of returning `"v"`. -/
theorem claim1_roundtrip_cex :
    get (restore [] false
        (dumpText [(("a\tb".toList), ("v".toList))])).1 ("a\tb".toList) =
      none ∧
      get [(("a\tb".toList), ("v".toList))] ("a\tb".toList) =
        some ("v".toList) ∧
      (restore [] false (dumpText [(("a\tb".toList), ("v".toList))])).1 =
        [(("a".toList), ("b\tv".toList))] := by
  decide

/-- C1 (amended): for every store with distinct keys none of which holds a
tab, newline or carriage return, dumping and then restoring the dumped text
(with any force setting) into a fresh empty store reproduces every record:
`Get` of each original key returns the same normalized value, regardless of
iteration order. -/
theorem claim1_roundtrip (s : Store) (f : Bool)
    (hnd : (s.map Prod.fst).Nodup)
    (hclean : ∀ p ∈ s, '\t' ∉ p.1 ∧ '\n' ∉ p.1 ∧ '\r' ∉ p.1) :
    ∀ k, dbMem s k = true →
      get (restore [] f (dumpText s)).1 k = get s k := by
  intro k hk
  obtain ⟨v, hv⟩ : ∃ v, dbGet s k = some v := by
    cases hg : dbGet s k with
    | none => rw [dbMem, hg] at hk; exact absurd hk (by simp)
    | some v => exact ⟨v, rfl⟩
  have htr : translateNewlines (dumpText s) = dumpText s :=
    translateNewlines_eq_self _
      (no_cr_dumpText s (fun p hp => (hclean p hp).2.2))
  have hsl : splitLines (dumpText s) = (dump s).map (fun l => l ++ ['\n']) :=
    splitLines_dumpText s (fun p hp => (hclean p hp).2.1)
  have haux := restore_dump_aux s [] f 1 hnd
    (fun p hp => ⟨(hclean p hp).1, (hclean p hp).2.1⟩) (fun p hp => rfl)
  have hres := haux.1 k v hv
  unfold restore
  rw [htr, hsl]
  simp [get, hres, hv, normalize_idem]

/-- Witness for the amended C1 on a concrete two-record store. -/
theorem claim1_roundtrip_witness :
    get (restore [] false
        (dumpText [(("a".toList), ("x y".toList)),
          (("b".toList), ("w".toList))])).1 ("a".toList) =
      get [(("a".toList), ("x y".toList)), (("b".toList), ("w".toList))]
        ("a".toList) :=
  claim1_roundtrip _ false (by decide) (by decide) ("a".toList) (by decide)

end BdbTool
